import Mathlib

/-!
Shallow embedding of the pane-grid layout tree of
`src/native/src/widget/pane_grid/node.rs` (the `iced` repository).

`Pane` and `Split` identifiers are opaque copyable ids with value equality;
we model both as `Nat`.  The `f32` ratio, spacing and rectangle coordinates
are modelled as exact rationals `ℚ`; every concrete value appearing in the
claims (`0.5`, `100000`, …) is exactly representable in `f32`, so the
rational model is faithful on them.  Rust's in-place mutation is modelled by
functions returning the new tree together with the original return value.
Mutable references returned by `find`/`find_split` are modelled as paths
(lists of child directions) from the root to the located node.
-/

namespace PaneGrid

/-- The direction of a split: `Axis` from `pane_grid`. -/
inductive Axis where
  | Horizontal
  | Vertical
deriving DecidableEq, Repr

/-- A layout node of a `PaneGrid`: either a binary `Split { id, axis, ratio, a, b }`
or a leaf `Pane(pane)`.  Mirrors `enum Node` in `node.rs`. -/
inductive Node where
  | Split (id : Nat) (axis : Axis) (r : ℚ) (a : Node) (b : Node)
  | Pane (p : Nat)
deriving DecidableEq, Repr

namespace Node

/-- Number of nodes of the tree; used as a termination measure. -/
def size : Node → Nat
  | .Split _ _ _ a b => 1 + a.size + b.size
  | .Pane _ => 1

/-- In-order list of the pane identifiers at the leaves. -/
def panes : Node → List Nat
  | .Split _ _ _ a b => a.panes ++ b.panes
  | .Pane p => [p]

/-- Preorder (self, `a`, `b`) list of the split identifiers at the internal nodes. -/
def splitIds : Node → List Nat
  | .Split id _ _ a b => id :: (a.splitIds ++ b.splitIds)
  | .Pane _ => []

/-- Embeds `Node::pane`: the pane id when the node is a `Pane` leaf. -/
def pane : Node → Option Nat
  | .Split _ _ _ _ _ => none
  | .Pane p => some p

/-- Embeds `Node::first_pane`: descend into `a` until a leaf is reached. -/
def first_pane : Node → Nat
  | .Split _ _ _ a _ => a.first_pane
  | .Pane p => p

/-- Embeds `Node::split`: the node is replaced by a `Split` whose `a` child is the
old node, whose `b` child is `new_node`, with ratio `0.5` and the given id/axis. -/
def split (n : Node) (id : Nat) (axis : Axis) (new_node : Node) : Node :=
  .Split id axis (1/2) n new_node

/-- Embeds `Node::resize`: returns the mutated tree and the boolean result.
At a `Split`: if the id matches, overwrite the ratio and succeed; otherwise try
`a` (keeping its possibly mutated value), then `b`. -/
def resize : Node → Nat → ℚ → Node × Bool
  | .Split id axis r a b, s, percentage =>
    if id = s then (.Split id axis percentage a b, true)
    else
      let ra := a.resize s percentage
      if ra.2 then (.Split id axis r ra.1 b, true)
      else
        let rb := b.resize s percentage
        (.Split id axis r ra.1 rb.1, rb.2)
  | .Pane p, _, _ => (.Pane p, false)

/-- Embeds `Node::remove`: returns the mutated tree and the returned pane.
At a `Split`: if `a` is the leaf `Pane(pane)`, the node becomes `b` and the first
pane of `b` is returned; symmetrically for `b`; otherwise recurse into `a`,
then (on failure) into `b`. -/
def remove : Node → Nat → Node × Option Nat
  | .Split id axis r a b, p =>
    if a.pane = some p then (b, some b.first_pane)
    else if b.pane = some p then (a, some a.first_pane)
    else
      let ra := a.remove p
      match ra.2 with
      | some q => (.Split id axis r ra.1 b, some q)
      | none =>
        let rb := b.remove p
        (.Split id axis r ra.1 rb.1, rb.2)
  | .Pane q, _ => (.Pane q, none)

/-- Embeds `Node::update`: apply `f` to every node, children before parent. -/
def update (f : Node → Node) : Node → Node
  | .Split id axis r a b => f (.Split id axis r (a.update f) (b.update f))
  | .Pane p => f (.Pane p)

end Node

/-- A step from a node to one of its two children (`a` is left/top, `b` is
right/bottom).  A `List Dir` is a path from the root, our rendering of the
mutable references returned by `Node::find` and `Node::find_split`. -/
inductive Dir where
  | A
  | B
deriving DecidableEq, Repr

namespace Node

/-- The subtree reached by following a path, when the path stays inside the tree. -/
def subAt : Node → List Dir → Option Node
  | n, [] => some n
  | .Split _ _ _ a _, .A :: rest => a.subAt rest
  | .Split _ _ _ _ b, .B :: rest => b.subAt rest
  | .Pane _, _ :: _ => none

/-- Replace the subtree at a path (the tree is unchanged when the path leaves it). -/
def replaceAt : Node → List Dir → Node → Node
  | _, [], m => m
  | .Split id axis r a b, .A :: rest, m => .Split id axis r (a.replaceAt rest m) b
  | .Split id axis r a b, .B :: rest, m => .Split id axis r a (b.replaceAt rest m)
  | .Pane q, _ :: _, _ => .Pane q

/-- Overwrite only the ratio of the `Split` node at a path, leaving every other
field and every other node untouched. -/
def setRatioAt : Node → List Dir → ℚ → Node
  | .Split id axis _ a b, [], r => .Split id axis r a b
  | .Split id axis r0 a b, .A :: rest, r => .Split id axis r0 (a.setRatioAt rest r) b
  | .Split id axis r0 a b, .B :: rest, r => .Split id axis r0 a (b.setRatioAt rest r)
  | .Pane q, _, _ => .Pane q

/-- Embeds `Node::find` (which returns `Option<&mut Node>`): the path to the first
leaf holding `pane`, searching `a` before `b` at every `Split`. -/
def find : Node → Nat → Option (List Dir)
  | .Split _ _ _ a b, p =>
    match a.find p with
    | some path => some (.A :: path)
    | none => (b.find p).map (fun path => .B :: path)
  | .Pane q, p => if q = p then some [] else none

/-- Embeds `Node::find_split`: the path to the first `Split` node with the given
id, matching the node itself before searching `a`, then `b`. -/
def find_split : Node → Nat → Option (List Dir)
  | .Split id _ _ a b, s =>
    if id = s then some []
    else
      match a.find_split s with
      | some path => some (.A :: path)
      | none => (b.find_split s).map (fun path => .B :: path)
  | .Pane _, _ => none

/-- The composite operation used by the pane grid: locate the leaf `Pane(p)` with
`find` and call `split(id, axis, new_node)` on the located node (the caller of
`Node::split` invokes it through `Node::find`).  `none` when `p` is absent. -/
def split_pane (t : Node) (p : Nat) (id : Nat) (axis : Axis) (new_node : Node) :
    Option Node :=
  (t.find p).map (fun path => t.replaceAt path ((Node.Pane p).split id axis new_node))

end Node

/-- Embeds the generator loop of `Node::splits`: pop a pending node from the
stack (head of the list); a `Split` yields its id and pushes `a` then `b`
(so `b` ends on top and is popped first); a `Pane` yields nothing. -/
def splitsAux : List Node → List Nat
  | [] => []
  | .Split id _ _ a b :: rest => id :: splitsAux (b :: a :: rest)
  | .Pane _ :: rest => splitsAux rest
termination_by l => (l.map Node.size).sum
decreasing_by
  all_goals simp [Node.size]
  omega

namespace Node

/-- Embeds `Node::splits`: the full (finite) sequence of split ids emitted by the
iterator, whose work list is seeded with the root. -/
def splits (t : Node) : List Nat := splitsAux [t]

/-- Recursive description of the order emitted by `splits`: the node's own id
first, then all ids of the `b` subtree, then all ids of the `a` subtree. -/
def splitsSpec : Node → List Nat
  | .Split id _ _ a b => id :: (b.splitsSpec ++ a.splitsSpec)
  | .Pane _ => []

end Node

/-- An axis-aligned rectangle, as `iced`'s `Rectangle` with `ℚ` coordinates. -/
structure Rect where
  x : ℚ
  y : ℚ
  width : ℚ
  height : ℚ
deriving DecidableEq, Repr

/-- A size, as `iced`'s `Size` with `ℚ` coordinates. -/
structure Size where
  width : ℚ
  height : ℚ
deriving DecidableEq, Repr

/-- The type of the external geometry partition `Axis::split(rectangle, ratio,
spacing) → (rectangle_a, rectangle_b)`.  The spec (§1, §6) treats it as an
external collaborator whose formula is out of scope, and `node.rs` only calls
it, so every theorem below quantifies over an arbitrary partition function. -/
abbrev Partition := Axis → Rect → ℚ → ℚ → Rect × Rect

/-- The starting rectangle `{0, 0, size.width, size.height}` used by both
`pane_regions` and `split_regions`. -/
def initRect (size : Size) : Rect :=
  ⟨0, 0, size.width, size.height⟩

/-- Lookup in our model of `HashMap`: entries are prepended on insert, so the
first match is the most recently inserted value, matching insert-overwrites. -/
def lookupMap {α : Type} (m : List (Nat × α)) (k : Nat) : Option α :=
  (m.find? (fun e => e.1 == k)).map (fun e => e.2)

namespace Node

/-- Embeds `Node::compute_regions`: fold the tree against the current rectangle,
splitting it with the partition function at every `Split` and recording the
rectangle of every `Pane` leaf (later inserts are prepended, hence win). -/
def compute_regions (part : Partition) (spacing : ℚ) :
    Node → Rect → List (Nat × Rect) → List (Nat × Rect)
  | .Split _ axis r a b, current, regions =>
    let pr := part axis current r spacing
    b.compute_regions part spacing pr.2 (a.compute_regions part spacing pr.1 regions)
  | .Pane p, current, regions => (p, current) :: regions

/-- Embeds `Node::compute_splits`: like `compute_regions`, but at every `Split`
recording its id mapped to its axis, the current (undivided) rectangle, and its
ratio, before recursing into both children with the partitioned rectangles. -/
def compute_splits (part : Partition) (spacing : ℚ) :
    Node → Rect → List (Nat × (Axis × Rect × ℚ)) → List (Nat × (Axis × Rect × ℚ))
  | .Split id axis r a b, current, splits =>
    let pr := part axis current r spacing
    b.compute_splits part spacing pr.2
      (a.compute_splits part spacing pr.1 ((id, (axis, current, r)) :: splits))
  | .Pane _, _, splits => splits

/-- Embeds `Node::pane_regions`. -/
def pane_regions (t : Node) (part : Partition) (spacing : ℚ) (size : Size) :
    List (Nat × Rect) :=
  t.compute_regions part spacing (initRect size) []

/-- Embeds `Node::split_regions`. -/
def split_regions (t : Node) (part : Partition) (spacing : ℚ) (size : Size) :
    List (Nat × (Axis × Rect × ℚ)) :=
  t.compute_splits part spacing (initRect size) []

/-- The rectangle handed to the node at the end of a path by the top-down fold:
partition the current rectangle at each `Split` along the path and keep the `a`
or `b` part as directed. -/
def rectAlong (part : Partition) (spacing : ℚ) : Node → Rect → List Dir → Option Rect
  | _, current, [] => some current
  | .Split _ axis r a b, current, d :: rest =>
    let pr := part axis current r spacing
    match d with
    | .A => a.rectAlong part spacing pr.1 rest
    | .B => b.rectAlong part spacing pr.2 rest
  | .Pane _, _, _ :: _ => none

end Node

/-- Models Rust's saturating `as u32` cast of the `f32` value `r * 100_000.0`:
truncation toward zero, negative values to `0`, values beyond `u32::MAX`
clamped.  This is the quantisation used by `impl Hash for Node`. -/
def quantize (r : ℚ) : Nat :=
  min (Int.toNat ⌊r * 100000⌋) (2 ^ 32 - 1)

/-- The code of an axis as fed to a hasher (`Axis` derives `Hash` on a
fieldless two-variant enum: the discriminant). -/
def Axis.code : Axis → Nat
  | .Horizontal => 0
  | .Vertical => 1

/-- Embeds `impl Hash for Node` as the exact stream of values fed to the hasher:
a `Split` feeds its id, its axis, the quantised ratio, then the streams of `a`
and `b`; a `Pane` feeds its pane id.  Two nodes receive identical hashes from
every deterministic hasher exactly when their streams are equal. -/
def Node.hashStream : Node → List Nat
  | .Split id axis r a b => id :: axis.code :: quantize r :: (a.hashStream ++ b.hashStream)
  | .Pane p => [p]

/-- Two trees that are identical except that the ratio of exactly one `Split`
node is `r1` in the first and `r2` in the second. -/
inductive RatioDiff (r1 r2 : ℚ) : Node → Node → Prop
  | here (id : Nat) (axis : Axis) (a b : Node) :
      RatioDiff r1 r2 (.Split id axis r1 a b) (.Split id axis r2 a b)
  | left (id : Nat) (axis : Axis) (r : ℚ) (a a' b : Node) :
      RatioDiff r1 r2 a a' → RatioDiff r1 r2 (.Split id axis r a b) (.Split id axis r a' b)
  | right (id : Nat) (axis : Axis) (r : ℚ) (a b b' : Node) :
      RatioDiff r1 r2 b b' → RatioDiff r1 r2 (.Split id axis r a b) (.Split id axis r a b')

namespace Node

theorem pane_eq_some {t : Node} {q : Nat} (h : t.pane = some q) : t = .Pane q := by
  cases t with
  | Split id axis r a b => simp [Node.pane] at h
  | Pane p => simp [Node.pane] at h; rw [h]

theorem pane_mem {t : Node} {q : Nat} (h : t.pane = some q) : q ∈ t.panes := by
  cases t <;> simp_all [Node.pane, Node.panes]

theorem panes_ne_nil (t : Node) : t.panes ≠ [] := by
  induction t <;> simp_all [Node.panes]

theorem first_pane_head (t : Node) : t.panes.head? = some t.first_pane := by
  induction t with
  | Split id axis r a b iha ihb =>
    cases ha : a.panes with
    | nil => exact absurd ha a.panes_ne_nil
    | cons x xs =>
      rw [ha] at iha
      simp only [Node.panes, Node.first_pane, ha, List.cons_append, List.head?_cons]
      simpa using iha
  | Pane p => rfl

theorem remove_not_mem : ∀ (t : Node) (p : Nat), p ∉ t.panes → t.remove p = (t, none) := by
  intro t
  induction t with
  | Pane q => intro p _; rfl
  | Split id axis r a b iha ihb =>
    intro p hp
    simp only [Node.panes, List.mem_append, not_or] at hp
    have ha : ¬ a.pane = some p := fun h => hp.1 (pane_mem h)
    have hb : ¬ b.pane = some p := fun h => hp.2 (pane_mem h)
    simp [Node.remove, ha, hb, iha p hp.1, ihb p hp.2]

theorem remove_none {t : Node} {p : Nat} (h : (t.remove p).2 = none) :
    (t.remove p).1 = t := by
  induction t with
  | Pane q => rfl
  | Split id axis r a b iha ihb =>
    by_cases ha : a.pane = some p
    · simp [Node.remove, ha] at h
    · by_cases hb : b.pane = some p
      · simp [Node.remove, ha, hb] at h
      · simp only [Node.remove, ha, hb, if_false] at h ⊢
        cases hra : (a.remove p).2 with
        | some q => simp [hra] at h
        | none => simp [hra] at h ⊢; exact ⟨iha hra, ihb h⟩

end Node

/-- C1: for every node `n` (leaf or subtree) and every `id`, `axis`, `new_node`,
`split(id, axis, new_node)` replaces `n` by a `Split` node whose `a` child is
the value `n` had before the call, whose `b` child is `new_node`, whose ratio
is `0.5`, and whose id and axis are the given arguments. -/
theorem split_replaces_node (n : Node) (id : Nat) (axis : Axis) (new_node : Node) :
    n.split id axis new_node = Node.Split id axis (1/2) n new_node := rfl

/-- C8: for every pane `p`, `remove(p)` on the single-leaf tree `Pane(p)` returns
nothing and leaves the tree unchanged — removal only fires when the matched
node's parent is a `Split` node, and a root leaf has none. -/
theorem remove_root_pane (p : Nat) :
    (Node.Pane p).remove p = (Node.Pane p, none) := rfl

/-- C2: at a `Split` node whose `a` child is the leaf `Pane(p)`, `remove(p)`
replaces the node by its `b` child and returns the leftmost leaf of that new
subtree (the head of its in-order pane list, found by always descending into
`a`); symmetrically when the `b` child is the matching leaf, the node is
replaced by its `a` child; when neither immediate child matches, removal
recurses into `a` first and then `b`; and `remove` returns nothing (leaving the
tree unchanged) when `p` is absent. -/
theorem remove_collapse_spec :
    (∀ (id : Nat) (axis : Axis) (r : ℚ) (b : Node) (p : Nat),
      (Node.Split id axis r (.Pane p) b).remove p = (b, some b.first_pane)) ∧
    (∀ (id : Nat) (axis : Axis) (r : ℚ) (a : Node) (p : Nat),
      a.pane ≠ some p →
      (Node.Split id axis r a (.Pane p)).remove p = (a, some a.first_pane)) ∧
    (∀ (id : Nat) (axis : Axis) (r : ℚ) (a b : Node) (p : Nat),
      a.pane ≠ some p → b.pane ≠ some p →
      (Node.Split id axis r a b).remove p =
        if ((a.remove p).2).isSome
        then (Node.Split id axis r (a.remove p).1 b, (a.remove p).2)
        else (Node.Split id axis r a (b.remove p).1, (b.remove p).2)) ∧
    (∀ (t : Node) (p : Nat), p ∉ t.panes → t.remove p = (t, none)) ∧
    (∀ t : Node, t.panes.head? = some t.first_pane) := by
  refine ⟨?_, ?_, ?_, Node.remove_not_mem, Node.first_pane_head⟩
  · intro id axis r b p
    simp [Node.remove, Node.pane]
  · intro id axis r a p h
    simp only [Node.remove, if_neg h]
    simp [Node.pane]
  · intro id axis r a b p h1 h2
    simp only [Node.remove, h1, h2, if_false]
    cases hra : (a.remove p).2 with
    | some q => simp [hra]
    | none => simp [hra, Node.remove_none hra]

/-- Witness for the hypothesised parts of the `remove` specification, on
concrete trees. -/
theorem remove_collapse_spec_witness :
    ((Node.Split 0 Axis.Horizontal (1/2) (.Pane 1) (.Pane 2)).remove 1
      = (Node.Pane 2, some 2)) ∧
    ((Node.Split 0 Axis.Horizontal (1/2) (.Pane 1) (.Pane 2)).remove 2
      = (Node.Pane 1, some 1)) ∧
    ((Node.Split 0 Axis.Vertical (1/2)
        (Node.Split 1 Axis.Horizontal (1/2) (.Pane 1) (.Pane 2))
        (.Pane 3)).remove 1
      = (Node.Split 0 Axis.Vertical (1/2) (.Pane 2) (.Pane 3), some 2)) ∧
    ((Node.Pane 1).remove 5 = (Node.Pane 1, none)) :=
  ⟨remove_collapse_spec.1 0 Axis.Horizontal (1/2) (.Pane 2) 1,
   remove_collapse_spec.2.1 0 Axis.Horizontal (1/2) (.Pane 1) 2 (by decide),
   remove_collapse_spec.2.2.1 0 Axis.Vertical (1/2)
     (Node.Split 1 Axis.Horizontal (1/2) (.Pane 1) (.Pane 2)) (.Pane 3) 1
     (by decide) (by decide),
   remove_collapse_spec.2.2.2.1 (Node.Pane 1) 5 (by decide)⟩

theorem splitsAux_eq (l : List Node) : splitsAux l = (l.map Node.splitsSpec).flatten := by
  induction l using splitsAux.induct with
  | case1 => simp [splitsAux]
  | case2 id axis r a b rest ih =>
    simp [splitsAux, Node.splitsSpec, ih]
  | case3 p rest ih =>
    simp [splitsAux, Node.splitsSpec, ih]

theorem splitsSpec_perm_splitIds (t : Node) : t.splitsSpec.Perm t.splitIds := by
  induction t with
  | Split id axis r a b iha ihb =>
    exact List.Perm.cons id (((ihb.append iha).trans List.perm_append_comm))
  | Pane p => exact List.Perm.refl _

/-- C6: `splits()` yields exactly the split ids of the tree (one per `Split`
node, nothing for `Pane` leaves, shown by permutation with the preorder id
list), and the emitted order is the node's own id first, then the whole `b`
subtree, then the whole `a` subtree, at every level; as a Lean function of the
tree, the sequence is finite and deterministic. -/
theorem splits_order_spec (t : Node) :
    t.splits = t.splitsSpec ∧ t.splits.Perm t.splitIds := by
  have h : t.splits = t.splitsSpec := by
    simp [Node.splits, splitsAux_eq]
  exact ⟨h, h ▸ splitsSpec_perm_splitIds t⟩

theorem find_split_mem {t : Node} {s : Nat} {path : List Dir}
    (h : t.find_split s = some path) : s ∈ t.splitIds := by
  induction t generalizing path with
  | Pane p => simp [Node.find_split] at h
  | Split id axis r a b iha ihb =>
    simp only [Node.find_split] at h
    by_cases hid : id = s
    · simp [Node.splitIds, hid]
    · rw [if_neg hid] at h
      cases ha : a.find_split s with
      | some q => exact List.mem_cons_of_mem _ (List.mem_append_left _ (iha ha))
      | none =>
        rw [ha] at h
        simp only [Option.map_eq_some'] at h
        obtain ⟨q, hq, _⟩ := h
        exact List.mem_cons_of_mem _ (List.mem_append_right _ (ihb hq))

theorem find_split_none {t : Node} {s : Nat} :
    t.find_split s = none ↔ s ∉ t.splitIds := by
  induction t with
  | Pane p => simp [Node.find_split, Node.splitIds]
  | Split id axis r a b iha ihb =>
    by_cases hid : id = s
    · simp [Node.find_split, hid, Node.splitIds]
    · simp only [Node.find_split, if_neg hid, Node.splitIds]
      cases ha : a.find_split s with
      | some q =>
        have hmem := find_split_mem ha
        simp [hmem, Ne.symm hid]
      | none =>
        rw [ha] at iha
        have hna : s ∉ a.splitIds := iha.1 rfl
        simp only [Option.map_eq_none', ihb, List.mem_cons, List.mem_append]
        simp [Ne.symm hid, hna]

theorem resize_find_split (t : Node) (s : Nat) (r : ℚ) :
    t.resize s r =
      match t.find_split s with
      | none => (t, false)
      | some path => (t.setRatioAt path r, true) := by
  induction t with
  | Pane p => rfl
  | Split id axis r0 a b iha ihb =>
    by_cases hid : id = s
    · simp [Node.resize, Node.find_split, hid, Node.setRatioAt]
    · simp only [Node.resize, Node.find_split, if_neg hid]
      cases ha : a.find_split s with
      | some path =>
        rw [ha] at iha
        simp [iha, Node.setRatioAt]
      | none =>
        rw [ha] at iha
        cases hb : b.find_split s with
        | some path =>
          rw [hb] at ihb
          simp [iha, ihb, Node.setRatioAt]
        | none =>
          rw [hb] at ihb
          simp [iha, ihb]

/-- C4: `resize(s, r)` returns `true` iff the tree contains a `Split` node with
id `s`; when it returns `false` the tree is unchanged; when a `Split` matches,
the depth-first-first (self, then `a`, then `b`, the `find_split` order)
matching node has its ratio overwritten with `r` — and nothing else changes,
since `setRatioAt` touches only that node's ratio; `r` is stored as given,
with no range check (the theorem holds for every rational `r`). -/
theorem resize_dfs_spec (t : Node) (s : Nat) (r : ℚ) :
    ((t.resize s r).2 = true ↔ s ∈ t.splitIds) ∧
    (s ∉ t.splitIds → t.resize s r = (t, false)) ∧
    (∀ path, t.find_split s = some path →
      t.resize s r = (t.setRatioAt path r, true)) := by
  have hcore := resize_find_split t s r
  refine ⟨⟨?_, ?_⟩, ?_, ?_⟩
  · intro h
    by_contra hs
    rw [← find_split_none] at hs
    rw [hcore, hs] at h
    simp at h
  · intro hs
    cases hfs : t.find_split s with
    | none => exact absurd (find_split_none.1 hfs) (by simp [hs])
    | some path => rw [hcore, hfs]
  · intro hs
    rw [hcore, find_split_none.2 hs]
  · intro path h
    rw [hcore, h]

/-- A sample tree with a duplicated split id (`1` at the root and at its `a`
child), exercising the first-match-wins behaviour of `resize`. -/
def tDup : Node :=
  Node.Split 1 Axis.Vertical (1/2)
    (Node.Split 1 Axis.Horizontal (1/3) (.Pane 0) (.Pane 1)) (.Pane 2)

/-- Witness for the `resize` specification: on `tDup`, resizing split `1` with
the out-of-range ratio `3/2` rewrites only the root's ratio (the first match in
self-`a`-`b` order), and resizing the absent split `9` fails and leaves the
tree unchanged. -/
theorem resize_dfs_spec_witness :
    (tDup.resize 1 (3/2) = (tDup.setRatioAt [] (3/2), true)) ∧
    (tDup.resize 9 (3/2) = (tDup, false)) :=
  ⟨(resize_dfs_spec tDup 1 (3/2)).2.2 [] rfl,
   (resize_dfs_spec tDup 9 (3/2)).2.1 (by decide)⟩

/-- C5 (amended): two trees identical except for one `Split` node's ratio feed
identical value streams to the hasher — hence hash identically under every
deterministic hasher — whenever the two ratios quantize to the same value
under the hash's truncation of `ratio * 100000` to a `u32`.  (A ratio
difference below `1/100000` alone does not suffice: it can cross a
quantization boundary, see the counterexample.) -/
theorem hash_quantize_stable (r1 r2 : ℚ) (t1 t2 : Node)
    (hd : RatioDiff r1 r2 t1 t2) (hq : quantize r1 = quantize r2) :
    t1.hashStream = t2.hashStream := by
  induction hd with
  | here id axis a b => simp [Node.hashStream, hq]
  | left id axis r a a' b _ ih => simp [Node.hashStream, ih]
  | right id axis r a b b' _ ih => simp [Node.hashStream, ih]

/-- Counterexample to C5 as stated: the ratios `9/1000000` and `11/1000000`
differ by `1/500000 < 1/100000`, yet they straddle the quantization boundary
(`0.9` truncates to `0`, `1.1` truncates to `1`), so the two trees feed
different streams to the hasher and do not hash identically. -/
theorem hash_subquantization_counterexample :
    RatioDiff (9/1000000) (11/1000000)
      (Node.Split 0 Axis.Horizontal (9/1000000) (.Pane 0) (.Pane 1))
      (Node.Split 0 Axis.Horizontal (11/1000000) (.Pane 0) (.Pane 1)) ∧
    |(9/1000000 : ℚ) - 11/1000000| < 1/100000 ∧
    (Node.Split 0 Axis.Horizontal (9/1000000) (.Pane 0) (.Pane 1)).hashStream ≠
      (Node.Split 0 Axis.Horizontal (11/1000000) (.Pane 0) (.Pane 1)).hashStream := by
  refine ⟨RatioDiff.here 0 Axis.Horizontal (.Pane 0) (.Pane 1), ?_, ?_⟩
  · rw [abs_sub_lt_iff]
    norm_num
  · have h9 : quantize (9/1000000) = 0 := by norm_num [quantize]
    have h11 : quantize (11/1000000) = 1 := by norm_num [quantize]
    simp [Node.hashStream, h9, h11]

/-- Witness for the amended C5: ratios `1/2` and `1/2 + 1/1000000` both
quantize to `50000`, and the corresponding trees hash identically. -/
theorem hash_quantize_stable_witness :
    quantize (1/2) = quantize (1/2 + 1/1000000) ∧
    (Node.Split 0 Axis.Horizontal (1/2) (.Pane 0) (.Pane 1)).hashStream =
      (Node.Split 0 Axis.Horizontal (1/2 + 1/1000000) (.Pane 0) (.Pane 1)).hashStream := by
  have hq : quantize (1/2) = quantize (1/2 + 1/1000000) := by
    norm_num [quantize]
  exact ⟨hq, hash_quantize_stable _ _ _ _
    (RatioDiff.here 0 Axis.Horizontal (.Pane 0) (.Pane 1)) hq⟩

/-- C3: splitting the located leaf `Pane(p)` with `split(new_id, axis,
Node::Pane(new_pane))` and then removing `new_pane` restores a tree equal to
the original (hence with equal structural hash), for every `new_id`, `axis`,
and `new_pane` not already present in the tree; the removal also reports `p`. -/
theorem split_then_remove (t : Node) (p new_id : Nat) (axis : Axis)
    (new_pane : Nat) (t' : Node) (hnp : new_pane ∉ t.panes)
    (h : t.split_pane p new_id axis (.Pane new_pane) = some t') :
    t'.remove new_pane = (t, some p) ∧ ((t'.remove new_pane).1).hashStream = t.hashStream := by
  suffices hs : t'.remove new_pane = (t, some p) by
    exact ⟨hs, by rw [hs]⟩
  induction t generalizing t' with
  | Pane q =>
    simp only [Node.split_pane, Node.find] at h
    by_cases hqp : q = p
    · rw [if_pos hqp] at h
      simp only [Option.map_some', Option.some.injEq] at h
      subst hqp
      have hne : q ≠ new_pane := by
        intro he
        exact hnp (by simp [Node.panes, he])
      rw [← h]
      simp [Node.replaceAt, Node.split, Node.remove, Node.pane, Node.first_pane, hne]
    · rw [if_neg hqp] at h
      simp at h
  | Split id0 ax0 r0 a b iha ihb =>
    simp only [Node.panes, List.mem_append, not_or] at hnp
    obtain ⟨hna, hnb⟩ := hnp
    simp only [Node.split_pane, Node.find] at h
    cases hfa : a.find p with
    | some path =>
      rw [hfa] at h
      simp only [Option.map_some', Option.some.injEq] at h
      have hra : (a.replaceAt path ((Node.Pane p).split new_id axis (.Pane new_pane))).remove
          new_pane = (a, some p) := by
        apply iha _ hna
        simp [Node.split_pane, hfa]
      rw [← h]
      have hpa : (a.replaceAt path ((Node.Pane p).split new_id axis (.Pane new_pane))).pane
          ≠ some new_pane := by
        intro hp
        rw [Node.pane_eq_some hp] at hra
        simp [Node.remove] at hra
      have hpb : b.pane ≠ some new_pane := fun hp => hnb (Node.pane_mem hp)
      simp only [Node.replaceAt, Node.remove, if_neg hpa, if_neg hpb]
      simp [hra]
    | none =>
      rw [hfa] at h
      cases hfb : b.find p with
      | some path =>
        rw [hfb] at h
        simp only [Option.map_map, Option.map_some', Option.some.injEq] at h
        have hrb : (b.replaceAt path ((Node.Pane p).split new_id axis (.Pane new_pane))).remove
            new_pane = (b, some p) := by
          apply ihb _ hnb
          simp [Node.split_pane, hfb]
        rw [← h]
        have hpb : (b.replaceAt path ((Node.Pane p).split new_id axis (.Pane new_pane))).pane
            ≠ some new_pane := by
          intro hp
          rw [Node.pane_eq_some hp] at hrb
          simp [Node.remove] at hrb
        have hpa : a.pane ≠ some new_pane := fun hp => hna (Node.pane_mem hp)
        simp only [Node.replaceAt, Node.remove, if_neg hpa, if_neg hpb]
        simp [Node.remove_not_mem a new_pane hna, hrb]
      | none =>
        rw [hfb] at h
        simp at h

/-- Witness for the round-trip law on a concrete tree: splitting pane `1` of
`Split(0, H, 1/2, Pane 1, Pane 2)` with a fresh pane `3` and removing `3`
restores the original tree. -/
theorem split_then_remove_witness :
    (3 ∉ (Node.Split 0 Axis.Horizontal (1/2) (.Pane 1) (.Pane 2)).panes) ∧
    ((Node.Split 0 Axis.Horizontal (1/2)
        (Node.Split 7 Axis.Vertical (1/2) (.Pane 1) (.Pane 3))
        (.Pane 2)).remove 3
      = (Node.Split 0 Axis.Horizontal (1/2) (.Pane 1) (.Pane 2), some 1)) :=
  ⟨by decide,
   (split_then_remove (Node.Split 0 Axis.Horizontal (1/2) (.Pane 1) (.Pane 2))
     1 7 Axis.Vertical 3
     (Node.Split 0 Axis.Horizontal (1/2)
       (Node.Split 7 Axis.Vertical (1/2) (.Pane 1) (.Pane 3)) (.Pane 2))
     (by decide) rfl).1⟩

theorem lookup_cons {α : Type} (k : Nat) (v : α) (m : List (Nat × α)) (s : Nat) :
    lookupMap ((k, v) :: m) s = if k = s then some v else lookupMap m s := by
  by_cases h : k = s <;> simp [lookupMap, List.find?_cons, h]

theorem lookup_compute_splits_not_mem (part : Partition) (spacing : ℚ) :
    ∀ (t : Node) (s : Nat) (cur : Rect) (m : List (Nat × (Axis × Rect × ℚ))),
      s ∉ t.splitIds →
      lookupMap (t.compute_splits part spacing cur m) s = lookupMap m s := by
  intro t
  induction t with
  | Pane p => intro s cur m _; rfl
  | Split id axis r a b iha ihb =>
    intro s cur m hs
    simp only [Node.splitIds, List.mem_cons, List.mem_append, not_or] at hs
    obtain ⟨hid, hsa, hsb⟩ := hs
    simp only [Node.compute_splits]
    rw [ihb _ _ _ hsb, iha _ _ _ hsa, lookup_cons]
    exact if_neg (fun he => hid he.symm)

theorem lookup_compute_splits_found (part : Partition) (spacing : ℚ) :
    ∀ (t : Node) (s : Nat) (path : List Dir) (cur : Rect)
      (m : List (Nat × (Axis × Rect × ℚ))),
      t.splitIds.Nodup → t.find_split s = some path →
      ∃ axis r a b rect,
        t.subAt path = some (.Split s axis r a b) ∧
        t.rectAlong part spacing cur path = some rect ∧
        lookupMap (t.compute_splits part spacing cur m) s = some (axis, rect, r) := by
  intro t
  induction t with
  | Pane p => intro s path cur m _ h; simp [Node.find_split] at h
  | Split id axis r a b iha ihb =>
    intro s path cur m hnd h
    rw [Node.splitIds, List.nodup_cons] at hnd
    obtain ⟨hidm, hab⟩ := hnd
    obtain ⟨hna, hnb, hdisj⟩ := List.nodup_append.1 hab
    simp only [Node.find_split] at h
    by_cases hid : id = s
    · rw [if_pos hid] at h
      simp only [Option.some.injEq] at h
      subst hid
      refine ⟨axis, r, a, b, cur, by rw [← h]; rfl, by rw [← h]; rfl, ?_⟩
      have hsa : id ∉ a.splitIds := fun hm => hidm (List.mem_append_left _ hm)
      have hsb : id ∉ b.splitIds := fun hm => hidm (List.mem_append_right _ hm)
      simp only [Node.compute_splits]
      rw [lookup_compute_splits_not_mem part spacing b _ _ _ hsb,
        lookup_compute_splits_not_mem part spacing a _ _ _ hsa, lookup_cons]
      simp
    · rw [if_neg hid] at h
      cases hfa : a.find_split s with
      | some q =>
        rw [hfa] at h
        simp only [Option.some.injEq] at h
        have hsb : s ∉ b.splitIds := fun hm => hdisj (find_split_mem hfa) hm
        obtain ⟨axis', r', a', b', rect, h1, h2, h3⟩ :=
          iha s q (part axis cur r spacing).1 ((id, (axis, cur, r)) :: m) hna hfa
        refine ⟨axis', r', a', b', rect, ?_, ?_, ?_⟩
        · rw [← h]; simpa [Node.subAt] using h1
        · rw [← h]; simpa [Node.rectAlong] using h2
        · simp only [Node.compute_splits]
          rw [lookup_compute_splits_not_mem part spacing b _ _ _ hsb]
          exact h3
      | none =>
        rw [hfa] at h
        cases hfb : b.find_split s with
        | some q =>
          rw [hfb] at h
          simp only [Option.map_some', Option.some.injEq] at h
          obtain ⟨axis', r', a', b', rect, h1, h2, h3⟩ :=
            ihb s q (part axis cur r spacing).2
              (a.compute_splits part spacing (part axis cur r spacing).1
                ((id, (axis, cur, r)) :: m)) hnb hfb
          refine ⟨axis', r', a', b', rect, ?_, ?_, ?_⟩
          · rw [← h]; simpa [Node.subAt] using h1
          · rw [← h]; simpa [Node.rectAlong] using h2
          · simp only [Node.compute_splits]
            exact h3
        | none => rw [hfb] at h; simp at h

theorem find_mem {t : Node} {q : Nat} {path : List Dir}
    (h : t.find q = some path) : q ∈ t.panes := by
  induction t generalizing path with
  | Pane p =>
    simp only [Node.find] at h
    by_cases hpq : p = q
    · simp [Node.panes, hpq]
    · rw [if_neg hpq] at h; simp at h
  | Split id axis r a b iha ihb =>
    simp only [Node.find] at h
    cases ha : a.find q with
    | some w => exact List.mem_append_left _ (iha ha)
    | none =>
      rw [ha] at h
      simp only [Option.map_eq_some'] at h
      obtain ⟨w, hw, _⟩ := h
      exact List.mem_append_right _ (ihb hw)

theorem lookup_compute_regions_not_mem (part : Partition) (spacing : ℚ) :
    ∀ (t : Node) (q : Nat) (cur : Rect) (m : List (Nat × Rect)),
      q ∉ t.panes →
      lookupMap (t.compute_regions part spacing cur m) q = lookupMap m q := by
  intro t
  induction t with
  | Pane p =>
    intro q cur m hq
    simp only [Node.panes, List.mem_singleton] at hq
    simp only [Node.compute_regions]
    rw [lookup_cons]
    exact if_neg (fun he => hq he.symm)
  | Split id axis r a b iha ihb =>
    intro q cur m hq
    simp only [Node.panes, List.mem_append, not_or] at hq
    simp only [Node.compute_regions]
    rw [ihb _ _ _ hq.2, iha _ _ _ hq.1]

theorem lookup_compute_regions_found (part : Partition) (spacing : ℚ) :
    ∀ (t : Node) (q : Nat) (path : List Dir) (cur : Rect) (m : List (Nat × Rect)),
      t.panes.Nodup → t.find q = some path →
      ∃ rect,
        t.subAt path = some (.Pane q) ∧
        t.rectAlong part spacing cur path = some rect ∧
        lookupMap (t.compute_regions part spacing cur m) q = some rect := by
  intro t
  induction t with
  | Pane p =>
    intro q path cur m _ h
    simp only [Node.find] at h
    by_cases hpq : p = q
    · rw [if_pos hpq] at h
      simp only [Option.some.injEq] at h
      subst hpq
      refine ⟨cur, by rw [← h]; rfl, by rw [← h]; rfl, ?_⟩
      simp only [Node.compute_regions]
      rw [lookup_cons]
      simp
    · rw [if_neg hpq] at h; simp at h
  | Split id axis r a b iha ihb =>
    intro q path cur m hnd h
    rw [Node.panes] at hnd
    obtain ⟨hna, hnb, hdisj⟩ := List.nodup_append.1 hnd
    simp only [Node.find] at h
    cases hfa : a.find q with
    | some w =>
      rw [hfa] at h
      simp only [Option.some.injEq] at h
      have hqb : q ∉ b.panes := fun hm => hdisj (find_mem hfa) hm
      obtain ⟨rect, h1, h2, h3⟩ := iha q w (part axis cur r spacing).1 m hna hfa
      refine ⟨rect, ?_, ?_, ?_⟩
      · rw [← h]; simpa [Node.subAt] using h1
      · rw [← h]; simpa [Node.rectAlong] using h2
      · simp only [Node.compute_regions]
        rw [lookup_compute_regions_not_mem part spacing b _ _ _ hqb]
        exact h3
    | none =>
      rw [hfa] at h
      simp only [Option.map_eq_some'] at h
      obtain ⟨w, hw, hpath⟩ := h
      obtain ⟨rect, h1, h2, h3⟩ :=
        ihb q w (part axis cur r spacing).2
          (a.compute_regions part spacing (part axis cur r spacing).1 m) hnb hw
      refine ⟨rect, ?_, ?_, ?_⟩
      · rw [← hpath]; simpa [Node.subAt] using h1
      · rw [← hpath]; simpa [Node.rectAlong] using h2
      · simp only [Node.compute_regions]
        exact h3

/-- C7: for every partition function, spacing and size, `split_regions` maps a
split id `s` (located at `path`, ids assumed unique) to the triple of that
split's axis, the undivided rectangle handed to the subtree rooted at that
split by the top-down fold starting from `{0, 0, size.width, size.height}`,
and that split's current ratio; and the fold hands rectangles to subtrees
exactly as `pane_regions` does — a pane's recorded rectangle is the rectangle
handed along its path by the same `rectAlong` fold. -/
theorem split_regions_undivided_spec (part : Partition) (spacing : ℚ)
    (size : Size) (t : Node) :
    (∀ s path, t.splitIds.Nodup → t.find_split s = some path →
      ∃ axis r a b rect,
        t.subAt path = some (.Split s axis r a b) ∧
        t.rectAlong part spacing (initRect size) path = some rect ∧
        lookupMap (t.split_regions part spacing size) s = some (axis, rect, r)) ∧
    (∀ q path, t.panes.Nodup → t.find q = some path →
      ∃ rect,
        t.subAt path = some (.Pane q) ∧
        t.rectAlong part spacing (initRect size) path = some rect ∧
        lookupMap (t.pane_regions part spacing size) q = some rect) :=
  ⟨fun s path hnd h =>
    lookup_compute_splits_found part spacing t s path (initRect size) [] hnd h,
   fun q path hnd h =>
    lookup_compute_regions_found part spacing t q path (initRect size) [] hnd h⟩

/-- A sample partition function for witnesses (the theorems quantify over all
of them): halve the rectangle's width, handing the left half to `a` and the
right half to `b`, ignoring ratio and spacing. -/
def partSample : Partition := fun _ cur _ _ =>
  (⟨cur.x, cur.y, cur.width / 2, cur.height⟩,
   ⟨cur.x + cur.width / 2, cur.y, cur.width / 2, cur.height⟩)

/-- A sample tree with distinct split ids and distinct pane ids. -/
def tSample : Node :=
  Node.Split 5 Axis.Vertical (1/2)
    (Node.Split 6 Axis.Horizontal (1/3) (.Pane 1) (.Pane 2)) (.Pane 3)

/-- Witness for the `split_regions` characterisation on `tSample`: the inner
split `6` (path `[A]`) and the pane `2` (path `[A, B]`). -/
theorem split_regions_undivided_spec_witness :
    (∃ axis r a b rect,
      tSample.subAt [Dir.A] = some (.Split 6 axis r a b) ∧
      tSample.rectAlong partSample 4 (initRect ⟨100, 100⟩) [Dir.A] = some rect ∧
      lookupMap (tSample.split_regions partSample 4 ⟨100, 100⟩) 6
        = some (axis, rect, r)) ∧
    (∃ rect,
      tSample.subAt [Dir.A, Dir.B] = some (.Pane 2) ∧
      tSample.rectAlong partSample 4 (initRect ⟨100, 100⟩) [Dir.A, Dir.B]
        = some rect ∧
      lookupMap (tSample.pane_regions partSample 4 ⟨100, 100⟩) 2 = some rect) :=
  ⟨(split_regions_undivided_spec partSample 4 ⟨100, 100⟩ tSample).1 6 [Dir.A]
      (by decide) rfl,
   (split_regions_undivided_spec partSample 4 ⟨100, 100⟩ tSample).2 2 [Dir.A, Dir.B]
      (by decide) rfl⟩

theorem setRatioAt_splitIds (t : Node) (path : List Dir) (r : ℚ) :
    (t.setRatioAt path r).splitIds = t.splitIds := by
  induction t generalizing path with
  | Pane p => cases path <;> rfl
  | Split id axis r0 a b iha ihb =>
    cases path with
    | nil => rfl
    | cons d rest => cases d <;> simp [Node.setRatioAt, Node.splitIds, iha, ihb]

theorem setRatioAt_find_split (t : Node) (path : List Dir) (r : ℚ) (s : Nat) :
    (t.setRatioAt path r).find_split s = t.find_split s := by
  induction t generalizing path with
  | Pane p => cases path <;> rfl
  | Split id axis r0 a b iha ihb =>
    cases path with
    | nil => rfl
    | cons d rest => cases d <;> simp [Node.setRatioAt, Node.find_split, iha, ihb]

theorem subAt_setRatioAt (t : Node) (path : List Dir) (r : ℚ) :
    ∀ {s : Nat} {axis : Axis} {r0 : ℚ} {a b : Node},
      t.subAt path = some (.Split s axis r0 a b) →
      (t.setRatioAt path r).subAt path = some (.Split s axis r a b) := by
  induction t generalizing path with
  | Pane p =>
    intro s axis r0 a b h
    cases path <;> simp [Node.subAt] at h
  | Split id axis0 rr a b iha ihb =>
    intro s axis r0 x y h
    cases path with
    | nil =>
      simp only [Node.subAt, Option.some.injEq] at h
      rw [h]
      rfl
    | cons d rest =>
      cases d with
      | A =>
        simp only [Node.subAt] at h
        simpa [Node.setRatioAt, Node.subAt] using iha rest h
      | B =>
        simp only [Node.subAt] at h
        simpa [Node.setRatioAt, Node.subAt] using ihb rest h

/-- C9: whenever `resize(s, r)` succeeds on a tree with distinct split ids,
`split_regions` on the resized tree (for every partition function, spacing and
size) maps `s` to a triple whose ratio component is exactly `r`. -/
theorem resize_then_split_regions (part : Partition) (spacing : ℚ) (size : Size)
    (t : Node) (s : Nat) (r : ℚ)
    (hnd : t.splitIds.Nodup) (ht : (t.resize s r).2 = true) :
    ∃ axis rect,
      lookupMap (((t.resize s r).1).split_regions part spacing size) s
        = some (axis, rect, r) := by
  have hmem : s ∈ t.splitIds := ((resize_dfs_spec t s r).1).1 ht
  obtain ⟨path, hpath⟩ : ∃ path, t.find_split s = some path := by
    cases hfs : t.find_split s with
    | none => exact absurd (find_split_none.1 hfs) (by simp [hmem])
    | some w => exact ⟨w, rfl⟩
  have hres := (resize_dfs_spec t s r).2.2 path hpath
  rw [hres]
  have hnd' : (t.setRatioAt path r).splitIds.Nodup := by
    rw [setRatioAt_splitIds]; exact hnd
  have hfs' : (t.setRatioAt path r).find_split s = some path := by
    rw [setRatioAt_find_split]; exact hpath
  obtain ⟨axis, r', a, b, rect, h1, h2, h3⟩ :=
    (split_regions_undivided_spec part spacing size (t.setRatioAt path r)).1
      s path hnd' hfs'
  obtain ⟨axis0, r0, a0, b0, rect0, g1, g2, g3⟩ :=
    (split_regions_undivided_spec part spacing size t).1 s path hnd hpath
  have h1' := subAt_setRatioAt t path r g1
  rw [h1] at h1'
  simp only [Option.some.injEq, Node.Split.injEq] at h1'
  obtain ⟨_, _, hr, _⟩ := h1'
  exact ⟨axis, rect, by rw [h3, hr]⟩

/-- Witness for C9 on `tSample`: resizing split `6` to the ratio `7/10`
succeeds, and `split_regions` of the resized tree reports ratio `7/10` for
split `6`. -/
theorem resize_then_split_regions_witness :
    tSample.splitIds.Nodup ∧ ((tSample.resize 6 (7/10)).2 = true) ∧
    ∃ axis rect,
      lookupMap (((tSample.resize 6 (7/10)).1).split_regions partSample 4
        ⟨100, 100⟩) 6 = some (axis, rect, 7/10) :=
  ⟨by decide, by decide,
   resize_then_split_regions partSample 4 ⟨100, 100⟩ tSample 6 (7/10)
     (by decide) (by decide)⟩

theorem subAt_panes_mem : ∀ (path : List Dir) (t n : Node) (q : Nat),
    t.subAt path = some n → q ∈ n.panes → q ∈ t.panes := by
  intro path
  induction path with
  | nil =>
    intro t n q h hq
    simp only [Node.subAt, Option.some.injEq] at h
    rw [h]; exact hq
  | cons d rest ih =>
    intro t n q h hq
    cases t with
    | Pane w => simp [Node.subAt] at h
    | Split id axis r a b =>
      cases d with
      | A =>
        simp only [Node.subAt] at h
        exact List.mem_append_left _ (ih a n q h hq)
      | B =>
        simp only [Node.subAt] at h
        exact List.mem_append_right _ (ih b n q h hq)

theorem subAt_decomp : ∀ (path : List Dir) (t n : Node), t.subAt path = some n →
    ∃ preP postP preI postI : List Nat,
      t.panes = preP ++ n.panes ++ postP ∧
      t.splitIds = preI ++ n.splitIds ++ postI ∧
      ∀ m : Node,
        (t.replaceAt path m).panes = preP ++ m.panes ++ postP ∧
        (t.replaceAt path m).splitIds = preI ++ m.splitIds ++ postI := by
  intro path
  induction path with
  | nil =>
    intro t n h
    simp only [Node.subAt, Option.some.injEq] at h
    exact ⟨[], [], [], [], by simp [h], by simp [h], fun m => by simp [Node.replaceAt]⟩
  | cons d rest ih =>
    intro t n h
    cases t with
    | Pane w => simp [Node.subAt] at h
    | Split id axis r a b =>
      cases d with
      | A =>
        simp only [Node.subAt] at h
        obtain ⟨preP, postP, preI, postI, h1, h2, h3⟩ := ih a n h
        refine ⟨preP, postP ++ b.panes, id :: preI, postI ++ b.splitIds, ?_, ?_, ?_⟩
        · simp [Node.panes, h1]
        · simp [Node.splitIds, h2]
        · intro m
          constructor
          · simp [Node.replaceAt, Node.panes, (h3 m).1]
          · simp [Node.replaceAt, Node.splitIds, (h3 m).2]
      | B =>
        simp only [Node.subAt] at h
        obtain ⟨preP, postP, preI, postI, h1, h2, h3⟩ := ih b n h
        refine ⟨a.panes ++ preP, postP, id :: (a.splitIds ++ preI), postI, ?_, ?_, ?_⟩
        · simp [Node.panes, h1]
        · simp [Node.splitIds, h2]
        · intro m
          constructor
          · simp [Node.replaceAt, Node.panes, (h3 m).1]
          · simp [Node.replaceAt, Node.splitIds, (h3 m).2]

theorem remove_at_path :
    ∀ (path : List Dir) (t : Node) (p sid : Nat) (axis : Axis) (r : ℚ) (x y : Node),
      t.panes.Nodup →
      t.subAt path = some (.Split sid axis r x y) →
      (x = Node.Pane p ∨ y = Node.Pane p) →
      t.remove p = (t.replaceAt path (if x = Node.Pane p then y else x),
        some (if x = Node.Pane p then y else x).first_pane) := by
  intro path
  induction path with
  | nil =>
    intro t p sid axis r x y hnd hsub hleaf
    simp only [Node.subAt, Option.some.injEq] at hsub
    subst hsub
    by_cases hx : x = Node.Pane p
    · subst hx
      simp [Node.remove, Node.pane, Node.replaceAt]
    · have hy : y = Node.Pane p := hleaf.resolve_left hx
      subst hy
      have hxp : x.pane ≠ some p := fun hp => hx (Node.pane_eq_some hp)
      simp only [Node.remove, if_neg hxp]
      simp [Node.pane, Node.replaceAt, hx]
  | cons d rest ih =>
    intro t p sid axis r x y hnd hsub hleaf
    cases t with
    | Pane q => simp [Node.subAt] at hsub
    | Split id0 ax0 r0 a b =>
      rw [Node.panes] at hnd
      obtain ⟨hna, hnb, hdisj⟩ := List.nodup_append.1 hnd
      have hpn : p ∈ (Node.Split sid axis r x y).panes := by
        cases hleaf with
        | inl hx => rw [hx]; simp [Node.panes]
        | inr hy => rw [hy]; simp [Node.panes]
      cases d with
      | A =>
        simp only [Node.subAt] at hsub
        have hpa : p ∈ a.panes := subAt_panes_mem rest a _ p hsub hpn
        have hpb : p ∉ b.panes := fun hm => hdisj hpa hm
        have hcond_a : a.pane ≠ some p := by
          intro hp
          rw [Node.pane_eq_some hp] at hsub
          cases rest <;> simp [Node.subAt] at hsub
        have hcond_b : b.pane ≠ some p := fun hp => hpb (Node.pane_mem hp)
        have hra := ih a p sid axis r x y hna hsub hleaf
        simp only [Node.remove, if_neg hcond_a, if_neg hcond_b, Node.replaceAt]
        simp [hra]
      | B =>
        simp only [Node.subAt] at hsub
        have hpb : p ∈ b.panes := subAt_panes_mem rest b _ p hsub hpn
        have hpa : p ∉ a.panes := fun hm => hdisj hm hpb
        have hcond_a : a.pane ≠ some p := fun hp => hpa (Node.pane_mem hp)
        have hcond_b : b.pane ≠ some p := by
          intro hp
          rw [Node.pane_eq_some hp] at hsub
          cases rest <;> simp [Node.subAt] at hsub
        have hrb := ih b p sid axis r x y hnb hsub hleaf
        simp only [Node.remove, if_neg hcond_a, if_neg hcond_b, Node.replaceAt]
        simp [Node.remove_not_mem a p hpa, hrb]

/-- C10: on a tree with unique pane labels, removing a pane `p` sitting at a
leaf whose parent is the `Split` node at `path` (with id `sid`) yields exactly
the tree with that `Split` replaced by the sibling subtree — every node
outside `path` keeps its id, axis, ratio and relative position — and the
resulting pane multiset is the old one minus `p`, while the resulting split-id
multiset is the old one minus one occurrence of `sid`. -/
theorem remove_frame_spec (t : Node) (p : Nat) (path : List Dir) (sid : Nat)
    (axis : Axis) (r : ℚ) (x y : Node)
    (hnd : t.panes.Nodup)
    (hsub : t.subAt path = some (.Split sid axis r x y))
    (hleaf : x = Node.Pane p ∨ y = Node.Pane p) :
    t.remove p = (t.replaceAt path (if x = Node.Pane p then y else x),
      some (if x = Node.Pane p then y else x).first_pane) ∧
    ((t.remove p).1.panes : Multiset Nat) = (t.panes : Multiset Nat).erase p ∧
    ((t.remove p).1.splitIds : Multiset Nat) = (t.splitIds : Multiset Nat).erase sid := by
  have hmain := remove_at_path path t p sid axis r x y hnd hsub hleaf
  obtain ⟨preP, postP, preI, postI, h1, h2, h3⟩ := subAt_decomp path t _ hsub
  obtain ⟨hm1, hm2⟩ := h3 (if x = Node.Pane p then y else x)
  refine ⟨hmain, ?_, ?_⟩
  · have hold : (t.panes : Multiset Nat) = p ::ₘ ((t.remove p).1.panes : Multiset Nat) := by
      rw [hmain, h1, hm1]
      by_cases hx : x = Node.Pane p
      · subst hx
        simp only [if_pos rfl, Node.panes]
        simp only [List.append_assoc, List.singleton_append]
        simp only [← Multiset.coe_add, ← Multiset.cons_coe, Multiset.coe_nil]
        simp only [← Multiset.singleton_add]
        abel_nf
      · have hy : y = Node.Pane p := hleaf.resolve_left hx
        subst hy
        simp only [if_neg hx, Node.panes]
        simp only [List.append_assoc, List.singleton_append]
        simp only [← Multiset.coe_add, ← Multiset.cons_coe, Multiset.coe_nil]
        simp only [← Multiset.singleton_add]
        abel_nf
    rw [hold, Multiset.erase_cons_head]
  · have hold : (t.splitIds : Multiset Nat)
        = sid ::ₘ ((t.remove p).1.splitIds : Multiset Nat) := by
      rw [hmain, h2, hm2]
      by_cases hx : x = Node.Pane p
      · subst hx
        simp only [if_pos rfl, Node.splitIds]
        simp only [List.append_assoc, List.singleton_append]
        simp only [← Multiset.coe_add, ← Multiset.cons_coe, Multiset.coe_nil]
        simp only [← Multiset.singleton_add]
        abel_nf
      · have hy : y = Node.Pane p := hleaf.resolve_left hx
        subst hy
        simp only [if_neg hx, Node.splitIds]
        simp only [List.append_assoc, List.singleton_append]
        simp only [← Multiset.coe_add, ← Multiset.cons_coe, Multiset.coe_nil]
        simp only [← Multiset.singleton_add]
        abel_nf
    rw [hold, Multiset.erase_cons_head]

/-- Witness for the frame property: removing pane `2` from
`Split(0, V, 1/2, Split(1, H, 1/3, Pane 1, Pane 2), Pane 3)` collapses the
inner split to `Pane 1` and shrinks the pane and split-id multisets by `2`
and `1` respectively. -/
theorem remove_frame_spec_witness :
    ((Node.Split 0 Axis.Vertical (1/2)
        (Node.Split 1 Axis.Horizontal (1/3) (.Pane 1) (.Pane 2))
        (.Pane 3)).remove 2
      = (Node.Split 0 Axis.Vertical (1/2) (.Pane 1) (.Pane 3), some 1)) ∧
    (((Node.Split 0 Axis.Vertical (1/2)
        (Node.Split 1 Axis.Horizontal (1/3) (.Pane 1) (.Pane 2))
        (.Pane 3)).remove 2).1.panes : Multiset Nat)
      = (((Node.Split 0 Axis.Vertical (1/2)
        (Node.Split 1 Axis.Horizontal (1/3) (.Pane 1) (.Pane 2))
        (.Pane 3)).panes : List Nat) : Multiset Nat).erase 2 ∧
    (((Node.Split 0 Axis.Vertical (1/2)
        (Node.Split 1 Axis.Horizontal (1/3) (.Pane 1) (.Pane 2))
        (.Pane 3)).remove 2).1.splitIds : Multiset Nat)
      = (((Node.Split 0 Axis.Vertical (1/2)
        (Node.Split 1 Axis.Horizontal (1/3) (.Pane 1) (.Pane 2))
        (.Pane 3)).splitIds : List Nat) : Multiset Nat).erase 1 :=
  remove_frame_spec
    (Node.Split 0 Axis.Vertical (1/2)
      (Node.Split 1 Axis.Horizontal (1/3) (.Pane 1) (.Pane 2)) (.Pane 3))
    2 [Dir.A] 1 Axis.Horizontal (1/3) (.Pane 1) (.Pane 2)
    (by decide) rfl (Or.inr rfl)

end PaneGrid
